import Mathlib

/-!
Shallow embedding of the ratio-quantization and windowing pipeline of the
`debut-plugin-cortex` repository (`src/utils.ts`, `src/neural.ts`, and the
`Model` variant of the unnamed source part implementing `Model.getOutput`).

JavaScript numbers are modelled as exact rationals (`ℚ`); `Math.floor`,
`Math.round`, `Math.ceil` and the implicit truncation performed by
`Array.prototype.slice` are modelled by the corresponding exact integer
operations.  Functions that can throw a `TypeError` in JavaScript (reading a
property of `undefined`) are modelled as `Option`-returning functions, with
`none` for the exceptional path.
-/

namespace Cortex

/-- Floor of a rational, computed from its reduced fraction.  This is the model
of JavaScript `Math.floor` on exact values; `ratFloor_eq_floor` connects it to
Mathlib's `⌊·⌋`. -/
def ratFloor (q : ℚ) : ℤ := q.num / q.den

theorem ratFloor_eq_floor (q : ℚ) : ratFloor q = ⌊q⌋ := (Rat.floor_def).symm

/-- JavaScript `Math.round`: round half toward positive infinity, i.e.
`⌊q + 1/2⌋`.  `ratRound_eq_round` connects it to Mathlib's `round`. -/
def ratRound (q : ℚ) : ℤ := ratFloor (q + 1 / 2)

theorem ratRound_eq_round (q : ℚ) : ratRound q = round q := by
  rw [ratRound, ratFloor_eq_floor, round_eq]

/-- Truncation toward zero, the `ToIntegerOrInfinity` conversion JavaScript
applies to non-integral arguments of `Array.prototype.slice`. -/
def qTrunc (q : ℚ) : ℤ := if q < 0 then -ratFloor (-q) else ratFloor q

theorem qTrunc_of_nonneg {q : ℚ} (h : 0 ≤ q) : qTrunc q = ⌊q⌋ := by
  rw [qTrunc, if_neg (not_lt.mpr h), ratFloor_eq_floor]

theorem qTrunc_natCast (n : ℕ) : qTrunc (n : ℚ) = n := by
  rw [qTrunc_of_nonneg (by positivity)]
  exact_mod_cast Int.floor_natCast n

theorem qTrunc_natCast_add (n : ℕ) {q : ℚ} (hq : 0 ≤ q) :
    qTrunc ((n : ℚ) + q) = n + qTrunc q := by
  rw [qTrunc_of_nonneg (by positivity), qTrunc_of_nonneg hq]
  rw [show ((n : ℚ) + q) = ((n : ℤ) : ℚ) + q by push_cast; ring]
  rw [Int.floor_int_add]

end Cortex

namespace Cortex

/-! ### JavaScript default sort order

`Array.prototype.sort()` without a comparator converts every element to a
string and compares the strings by UTF-16 code units.  For the (finitely
rounded, exact) rational values appearing as keys of the frequency table the
produced string is the usual shortest decimal representation; we build that
string as a list of characters and compare lexicographically. -/

/-- The fractional digits of `f` (`f < 10 ^ p`), zero-padded to `p` digits on
the left and with trailing zeros removed, as JavaScript prints them. -/
def fracChars (p : ℕ) (f : ℕ) : List Char :=
  (((List.replicate (p - (Nat.toDigits 10 f).length) '0' ++
      Nat.toDigits 10 f).reverse.dropWhile (fun c => c = '0')).reverse)

/-- The decimal string (as a character list) JavaScript produces for a rational
value whose denominator divides `10 ^ p` — exactly the values returned by
`toFixed` with precision `p`. -/
def jsNumChars (p : ℕ) (q : ℚ) : List Char :=
  let n : ℤ := ratFloor (q * 10 ^ p)
  let m : ℕ := n.natAbs
  let ip : ℕ := m / 10 ^ p
  let fp : ℕ := m % 10 ^ p
  let core : List Char :=
    Nat.toDigits 10 ip ++ (if fp = 0 then [] else '.' :: fracChars p fp)
  if n < 0 then '-' :: core else core

/-- Lexicographic comparison of strings by code unit (JavaScript `<` on
strings); a proper prefix is smaller. -/
def charsLt : List Char → List Char → Bool
  | [], [] => false
  | [], _ :: _ => true
  | _ :: _, [] => false
  | a :: as, b :: bs => if a < b then true else if b < a then false else charsLt as bs

/-- The ordering used by comparator-less `Array.prototype.sort()` on the
frequency-table keys: `a` may precede `b` iff `String(a) ≤ String(b)`. -/
def jsKeyLe (p : ℕ) (a b : ℚ) : Bool := ! charsLt (jsNumChars p b) (jsNumChars p a)

/-- Insert into a sorted list according to a boolean "may precede" relation. -/
def insertSorted (le : ℚ → ℚ → Bool) (x : ℚ) : List ℚ → List ℚ
  | [] => [x]
  | y :: ys => if le x y then x :: y :: ys else y :: insertSorted le x ys

/-- Sorting model for `Array.prototype.sort`: an insertion sort.  The keys
being sorted are pairwise distinct and the string order is total, so any
comparison sort produces the same output as the engine's sort. -/
def jsSort (le : ℚ → ℚ → Bool) : List ℚ → List ℚ
  | [] => []
  | x :: xs => insertSorted le x (jsSort le xs)

theorem insertSorted_perm (le : ℚ → ℚ → Bool) (x : ℚ) (l : List ℚ) :
    (insertSorted le x l).Perm (x :: l) := by
  induction l with
  | nil => simp [insertSorted]
  | cons y ys ih =>
    rw [insertSorted]
    by_cases h : le x y
    · rw [if_pos h]
    · rw [if_neg h]
      exact (ih.cons y).trans (List.Perm.swap x y ys)

theorem jsSort_perm (le : ℚ → ℚ → Bool) (l : List ℚ) : (jsSort le l).Perm l := by
  induction l with
  | nil => simp [jsSort]
  | cons x xs ih => exact (insertSorted_perm le x (jsSort le xs)).trans (ih.cons x)

/-! ### JavaScript `Map` iteration order

`Map` keys iterate in insertion order; `mapKeys` collects the distinct keys of
the frequency table in first-insertion order. -/

/-- One step of key collection: append the key if it is new. -/
def insertKey (acc : List ℚ) (k : ℚ) : List ℚ := if k ∈ acc then acc else acc ++ [k]

/-- The distinct elements of `l` in first-occurrence order: the key set of the
JavaScript `Map` built by the counting loop of `getDistribution`. -/
def mapKeys (l : List ℚ) : List ℚ := l.foldl insertKey []

theorem foldl_insertKey_nodup (l : List ℚ) :
    ∀ acc : List ℚ, acc.Nodup → (l.foldl insertKey acc).Nodup := by
  induction l with
  | nil => intro acc h; simpa using h
  | cons x xs ih =>
    intro acc h
    rw [List.foldl_cons]
    apply ih
    rw [insertKey]
    by_cases hx : x ∈ acc
    · rwa [if_pos hx]
    · rw [if_neg hx]
      simpa [List.nodup_append] using ⟨h, hx⟩

theorem mem_foldl_insertKey (l : List ℚ) :
    ∀ (acc : List ℚ) (x : ℚ), x ∈ l.foldl insertKey acc ↔ x ∈ acc ∨ x ∈ l := by
  induction l with
  | nil => intro acc x; simp
  | cons y ys ih =>
    intro acc x
    rw [List.foldl_cons, ih]
    rw [insertKey]
    by_cases hy : y ∈ acc
    · rw [if_pos hy]
      constructor
      · rintro (h | h)
        · exact Or.inl h
        · exact Or.inr (List.mem_cons_of_mem y h)
      · rintro (h | h)
        · exact Or.inl h
        · rcases List.mem_cons.mp h with rfl | h
          · exact Or.inl hy
          · exact Or.inr h
    · rw [if_neg hy]
      constructor
      · rintro (h | h)
        · rcases List.mem_append.mp h with h | h
          · exact Or.inl h
          · simp only [List.mem_singleton] at h
            exact Or.inr (h ▸ List.mem_cons_self y ys)
        · exact Or.inr (List.mem_cons_of_mem y h)
      · rintro (h | h)
        · exact Or.inl (List.mem_append.mpr (Or.inl h))
        · rcases List.mem_cons.mp h with rfl | h
          · exact Or.inl (List.mem_append.mpr (Or.inr (List.mem_singleton.mpr rfl)))
          · exact Or.inr h

theorem mapKeys_nodup (l : List ℚ) : (mapKeys l).Nodup :=
  foldl_insertKey_nodup l [] List.nodup_nil

theorem mem_mapKeys (l : List ℚ) (x : ℚ) : x ∈ mapKeys l ↔ x ∈ l := by
  rw [mapKeys, mem_foldl_insertKey]
  simp

end Cortex

namespace Cortex

/-! ### Data model (`src/utils.ts`) -/

/-- A price candle (`@debut/types`): open/high/low/close, volume, timestamp. -/
structure Candle where
  time : ℚ
  o : ℚ
  h : ℚ
  l : ℚ
  c : ℚ
  v : ℚ
deriving DecidableEq

/-- Special candle format with ratio instead of value (`RatioCandle`). -/
structure RatioCandle where
  time : ℚ
  volume : ℚ
  ratio : ℚ
deriving DecidableEq

/-- One segment of the ratio distribution (`DistributionSegment`). -/
structure DistributionSegment where
  ratioFrom : ℚ
  ratioTo : ℚ
  count : ℕ
deriving DecidableEq

/-- An entry of the sorted frequency table (`DistributionData`). -/
structure DistributionData where
  count : ℕ
  ratio : ℚ
deriving DecidableEq

/-- A price forecast (`NeuroVision` in `src/index.ts`, `CortexForecast` in the
cortex variant): low/high/average prices. -/
structure NeuroVision where
  low : ℚ
  high : ℚ
  avg : ℚ
deriving DecidableEq

/-- `getQuoteRatioData`: ratio of OHLC averages of two consecutive candles. -/
def getQuoteRatioData (current prev : Candle) : RatioCandle :=
  { time := current.time
    ratio := ((current.o + current.h + current.l + current.c) / 4) /
      ((prev.o + prev.h + prev.l + prev.c) / 4)
    volume := current.v }

/-- Modelled from the spec: `math.toFixed` of the external `@debut/plugin-utils`
package (whose source is not part of this repository) — "Round every
observationʼs ratio to `precision` decimal digits". -/
def toFixed (r : ℚ) (precision : ℕ) : ℚ :=
  (ratRound (r * 10 ^ precision) : ℚ) / 10 ^ precision

/-- `Math.ceil(n / sc)` for natural `n`, `sc` with `sc > 0`, in pure natural
arithmetic. -/
def segCeil (n sc : ℕ) : ℕ := (n + sc - 1) / sc

/-- The sorted key list of the frequency table built by `getDistribution`:
distinct rounded ratios in `Map` insertion order, then sorted by
comparator-less `Array.prototype.sort` (string order). -/
def sortedRatioKeys (ratioCandles : List RatioCandle) (precision : ℕ) : List ℚ :=
  jsSort (jsKeyLe precision) (mapKeys (ratioCandles.map (fun c => toFixed c.ratio precision)))

/-- The `gaussianDistr.forEach` accumulation loop of `getDistribution`.
`segments`, `localCountSum` and `ratioFrom` are the mutable locals.  JavaScript
evaluates `segments.length === segmentsCount - 1` over signed numbers, hence the
cast to `ℤ`; when `segmentsCount = 0`, `segmentSize` is `Infinity` in JavaScript
and `nextSum > segmentSize` is always false, which the `segmentsCount ≠ 0` guard
encodes. -/
def distWalk (segmentsCount segmentSize : ℕ) :
    List DistributionData → List DistributionSegment → ℕ → ℚ → List DistributionSegment
  | [], segments, _, _ => segments
  | item :: rest, segments, localCountSum, ratioFrom =>
    let nextSum := localCountSum + item.count
    if (segmentsCount ≠ 0 ∧ nextSum > segmentSize ∧
          ¬((segments.length : ℤ) = (segmentsCount : ℤ) - 1)) ∨ rest = [] then
      distWalk segmentsCount segmentSize rest
        (segments ++ [⟨ratioFrom, item.ratio, localCountSum⟩]) item.count item.ratio
    else
      distWalk segmentsCount segmentSize rest segments nextSum ratioFrom

/-- `getDistribution` (`src/utils.ts`): frequency table over rounded ratios,
keys sorted by the default (string) sort, then the accumulation walk.  On an
empty observation list the source dereferences `gaussianDistr[0].ratio` of an
empty array and throws, modelled by `none`. -/
def getDistribution (ratioCandles : List RatioCandle) (segmentsCount precision : ℕ) :
    Option (List DistributionSegment) :=
  let keys := ratioCandles.map (fun c => toFixed c.ratio precision)
  let gaussianDistr : List DistributionData :=
    (sortedRatioKeys ratioCandles precision).map (fun k => ⟨keys.count k, k⟩)
  match gaussianDistr with
  | [] => none
  | g0 :: _ =>
    some (distWalk segmentsCount (segCeil ratioCandles.length segmentsCount)
      gaussianDistr [] 0 g0.ratio)

end Cortex

namespace Cortex

/-! ### Classification and model I/O (`src/neural.ts`) -/

/-- `Array.prototype.findIndex`: index of the first match, `-1` when none. -/
def jsFindIndex {α : Type} (p : α → Bool) : List α → ℤ
  | [] => -1
  | a :: as =>
    if p a then 0
    else if jsFindIndex p as = -1 then -1 else jsFindIndex p as + 1

/-- The segment-membership test of the `findIndex` callbacks:
`ratio >= group.ratioFrom && ratio < group.ratioTo`. -/
def groupPred (r : ℚ) (g : DistributionSegment) : Bool :=
  decide (g.ratioFrom ≤ r) && decide (r < g.ratioTo)

/-- `Network.normalize`: `groupId / segmentsCount`.  (All callers use
`segmentsCount ≥ 1`; for `segmentsCount = 0` JavaScript would produce
`±Infinity`/`NaN` where rational division yields `0`.) -/
def normalize (segmentsCount : ℕ) (groupId : ℤ) : ℚ :=
  (groupId : ℚ) / (segmentsCount : ℚ)

/-- `Network.denormalize`:
`Math.min(Math.round(value * segmentsCount), segmentsCount - 1)`. -/
def denormalize (segmentsCount : ℕ) (value : ℚ) : ℤ :=
  min (ratRound (value * (segmentsCount : ℚ))) ((segmentsCount : ℤ) - 1)

/-- JavaScript array indexing with an arbitrary integer index:
`some` element inside bounds, `none` (`undefined`) outside. -/
def jsIndex {α : Type} (l : List α) (i : ℤ) : Option α :=
  if h : 0 ≤ i ∧ i.toNat < l.length then some (l.get ⟨i.toNat, h.2⟩) else none

/-- `getPredictPrices` (`src/utils.ts`). -/
def getPredictPrices (price ratioFrom ratioTo : ℚ) : NeuroVision :=
  { low := price * ratioFrom
    high := price * ratioTo
    avg := (price * ratioFrom + price * ratioTo) / 2 }

/-- The quantization loop of `Network.serveTrainingData`: every ratio candle of
a stream becomes `normalize(findIndex(...))` — note the `-1` of a failed
`findIndex` is not clamped here. -/
def quantizeStream (dist : List DistributionSegment) (segmentsCount : ℕ)
    (dataset : List RatioCandle) : List ℚ :=
  dataset.map (fun rc => normalize segmentsCount (jsFindIndex (groupPred rc.ratio) dist))

/-- `Array.prototype.slice` with (possibly fractional, possibly negative)
numeric arguments: both are converted with truncation toward zero, negative
values count from the end, and the result is the half-open index range. -/
def jsSliceQ {α : Type} (l : List α) (a b : ℚ) : List α :=
  let len : ℤ := (l.length : ℤ)
  let s : ℤ := if qTrunc a < 0 then max (len + qTrunc a) 0 else min (qTrunc a) len
  let e : ℤ := if qTrunc b < 0 then max (len + qTrunc b) 0 else min (qTrunc b) len
  (l.take e.toNat).drop s.toNat

/-- One training example of the window loop at `windowStart = k`:
`input` is the concatenation of every stream's
`slice(windowStart, windowEnd)`, `output` is stream 0's
`slice(windowEnd, windowEnd + outputSize)`. -/
def mkExample (rows : List (List ℚ)) (r0 : List ℚ) (realInputSize : ℚ)
    (outputSize : ℕ) (k : ℕ) : List ℚ × List ℚ :=
  ((rows.map (fun r => jsSliceQ r (k : ℚ) ((k : ℚ) + realInputSize))).flatten,
    jsSliceQ r0 ((k : ℚ) + realInputSize) ((k : ℚ) + realInputSize + (outputSize : ℚ)))

/-- The `for (windowStart..., windowEnd...)` loop of
`Network.serveTrainingData`.  `fuel` bounds the number of iterations; the
callers supply `this.input[0].length + 1`, which exceeds the number of loop
iterations because `windowEnd` grows by one per iteration and starts
nonnegative. -/
def windowLoop (rows : List (List ℚ)) (r0 : List ℚ) (realInputSize : ℚ)
    (outputSize : ℕ) : ℕ → ℕ → List (List ℚ × List ℚ)
  | 0, _ => []
  | fuel + 1, windowStart =>
    if ((windowStart : ℚ) + realInputSize : ℚ) < (r0.length : ℚ) - (outputSize : ℚ) then
      ((rows.map (fun r => jsSliceQ r (windowStart : ℚ) ((windowStart : ℚ) + realInputSize))).flatten,
        jsSliceQ r0 ((windowStart : ℚ) + realInputSize)
          ((windowStart : ℚ) + realInputSize + (outputSize : ℚ))) ::
        windowLoop rows r0 realInputSize outputSize fuel (windowStart + 1)
    else []

/-- `Option`-valued map over a list, propagating the first failure — the model
of a loop that can throw. -/
def optMap {α β : Type} (f : α → Option β) : List α → Option (List β)
  | [] => some []
  | a :: as =>
    match f a with
    | none => none
    | some b => (optMap f as).map (fun bs => b :: bs)

/-- The distribution-building part of `Network.serveTrainingData`:
`this.distribution[index] = getDistribution(dataset, segmentsCount)` for every
stream (precision defaulting to 4). -/
def buildDistributions (segmentsCount : ℕ) (dataset : List (List RatioCandle)) :
    Option (List (List DistributionSegment)) :=
  optMap (fun d => getDistribution d segmentsCount 4) dataset

/-- The parameters of `Network` used by the embedded operations
(`NeuroVisionPluginOptions`). -/
structure NetworkParams where
  inputSize : ℕ
  segmentsCount : ℕ
  outputSize : ℕ
deriving DecidableEq

/-- `Network.addTrainingData` applied to one stream's whole candle history
starting from a fresh state: every candle after the first pairs with its
predecessor through `getQuoteRatioData`; the first candle only seeds
`this.prevCandle`. -/
def addTrainingData (candles : List Candle) : List RatioCandle :=
  (candles.zip candles.tail).map (fun pr => getQuoteRatioData pr.2 pr.1)

/-- `Network.serveTrainingData` from a fresh training state: builds each
stream's distribution, quantizes each stream's ratio history into
`this.input`, then assembles training windows.  `realInputSize` is
`inputSize / dataset.length` in exact arithmetic.  With no streams the source
reads `this.input[0].length` of an empty array and throws (`none`). -/
def serveTrainingData (params : NetworkParams) (dataset : List (List RatioCandle)) :
    Option (List (List ℚ × List ℚ)) :=
  let realInputSize : ℚ := (params.inputSize : ℚ) / (dataset.length : ℚ)
  match buildDistributions params.segmentsCount dataset with
  | none => none
  | some dists =>
    let inputRows := (dataset.zip dists).map
      (fun pr => quantizeStream pr.2 params.segmentsCount pr.1)
    match inputRows with
    | [] => none
    | r0 :: _ =>
      some (windowLoop inputRows r0 realInputSize params.outputSize (r0.length + 1) 0)

end Cortex

namespace Cortex

/-! ### Inference-time state (`Network.getInput`, `momentValue`, `nextValue`) -/

/-- The clamped classification of `Network.getInput`: `findIndex`, and when it
returns `-1`, index `0` for ratios below `distribution[index][0].ratioFrom`,
else the last index.  Reading `[0].ratioFrom` of an empty distribution throws
(`none`). -/
def clampedGroupId (dist : List DistributionSegment) (r : ℚ) : Option ℤ :=
  let groupId := jsFindIndex (groupPred r) dist
  if groupId = -1 then
    match dist with
    | [] => none
    | d0 :: _ => some (if r < d0.ratioFrom then 0 else (dist.length : ℤ) - 1)
  else some groupId

/-- `input[index].push(value)` followed by the conditional
`input[index].shift()` of `Network.getInput`: append, then evict the oldest
entry when the row exceeds `singleInputSize`. -/
def pushEvict (singleInputSize : ℚ) (row : List ℚ) (q : ℚ) : List ℚ :=
  if ((row ++ [q]).length : ℚ) > singleInputSize then (row ++ [q]).tail else row ++ [q]

/-- The mutable state of a `Network` instance relevant to inference.
JavaScript array slots that were never assigned (holes) are modelled as absent
list positions (for `prevCandle`, an explicit `none`); an empty row and a hole
behave identically in this code (`!input[index]` is false for an existing empty
array only at the `input[index] = []` re-initialisation, which is a no-op
there), so `input` rows are plain lists. -/
structure NetworkState where
  prevCandle : List (Option Candle)
  distribution : List (List DistributionSegment)
  input : List (List ℚ)
deriving DecidableEq

/-- The per-index quantization step of `Network.getInput` at stream `i`:
outer `none` models a thrown `TypeError` (missing `distribution[index]` row or
empty distribution at the clamp), inner `none` the skipped push when there is
no previous candle yet.  The value pushed is `normalize(groupId)` of the
clamped classification of the fresh ratio candle. -/
def getInputQuant (s : NetworkState) (candles : List Candle) (segmentsCount i : ℕ) :
    Option (Option ℚ) :=
  match candles.get? i with
  | none => some none
  | some candle =>
    match s.prevCandle.getD i none with
    | none => some none
    | some prev =>
      match s.distribution.get? i with
      | none => none
      | some dist =>
        match clampedGroupId dist (getQuoteRatioData candle prev).ratio with
        | none => none
        | some gid => some (some (normalize segmentsCount gid))

/-- The effect of `Network.getInput` on the row at index `i` whose current
content is `row`: streams that produced a quantized value get it appended (with
eviction); others are untouched. -/
def rowUpdate (s : NetworkState) (candles : List Candle) (segmentsCount : ℕ)
    (singleInputSize : ℚ) (i : ℕ) (row : List ℚ) : Option (List ℚ) :=
  if i < candles.length then
    (getInputQuant s candles segmentsCount i).map (fun oq =>
      match oq with
      | some q => pushEvict singleInputSize row q
      | none => row)
  else some row

/-- The first `n` rows after `Network.getInput` ran, starting from the stored
rows (`this.input[i]`, defaulting to a fresh `[]` for rows not yet present). -/
def rowsAfter (s : NetworkState) (candles : List Candle) (segmentsCount : ℕ)
    (singleInputSize : ℚ) (n : ℕ) : Option (List (List ℚ)) :=
  optMap (fun i => rowUpdate s candles segmentsCount singleInputSize i (s.input.getD i []))
    (List.range n)

/-- The array `Network.getInput` returns: `[...this.input]` (same inner row
objects) extended by any rows first created during this call. -/
def getInputReturned (s : NetworkState) (candles : List Candle) (segmentsCount : ℕ)
    (singleInputSize : ℚ) : Option (List (List ℚ)) :=
  rowsAfter s candles segmentsCount singleInputSize (max candles.length s.input.length)

/-- The content of `this.input` after `Network.getInput` ran: the outer array
object is untouched, but every existing row is the same object as in the
returned copy, so the `push`/`shift` mutations of rows `i < this.input.length`
are visible in the stored state. -/
def getInputStored (s : NetworkState) (candles : List Candle) (segmentsCount : ℕ)
    (singleInputSize : ℚ) : Option (List (List ℚ)) :=
  rowsAfter s candles segmentsCount singleInputSize s.input.length

/-- `this.prevCandle` after `Network.getInput` ran:
`this.prevCandle[index] = candle` for every processed index. -/
def prevAfter (s : NetworkState) (candles : List Candle) : List (Option Candle) :=
  (List.range (max candles.length s.prevCandle.length)).map (fun i =>
    match candles.get? i with
    | some c => some c
    | none => s.prevCandle.getD i none)

/-- The state after `Network.momentValue`: `getInput` is called for its
returned value only, but the row mutations alias `this.input` and
`this.prevCandle` is reassigned inside `getInput`. -/
def momentValueState (s : NetworkState) (candles : List Candle)
    (segmentsCount inputSize : ℕ) : Option NetworkState :=
  let singleInputSize : ℚ := (inputSize : ℚ) / (candles.length : ℚ)
  (getInputStored s candles segmentsCount singleInputSize).map (fun rows =>
    { prevCandle := prevAfter s candles
      distribution := s.distribution
      input := rows })

/-- The state after `Network.nextValue`: `this.input = this.getInput(...)`. -/
def nextValueState (s : NetworkState) (candles : List Candle)
    (segmentsCount inputSize : ℕ) : Option NetworkState :=
  let singleInputSize : ℚ := (inputSize : ℚ) / (candles.length : ℚ)
  (getInputReturned s candles segmentsCount singleInputSize).map (fun rows =>
    { prevCandle := prevAfter s candles
      distribution := s.distribution
      input := rows })

/-! ### Forecast reconstruction (`Network.getOutput` in `src/neural.ts` and
`Model.getOutput` in the unnamed cortex `Model` source) -/

/-- The reconstruction loop of `Network.getOutput` (`src/neural.ts`): for every
predicted value, denormalize and look the group up; `if (group)` — a missing
group skips only that forecast step. -/
def networkGetOutputLoop (dist : List DistributionSegment) (segmentsCount : ℕ)
    (price : ℚ) : List ℚ → List NeuroVision
  | [] => []
  | cast :: rest =>
    match jsIndex dist (denormalize segmentsCount cast) with
    | some group =>
      getPredictPrices price group.ratioFrom group.ratioTo ::
        networkGetOutputLoop dist segmentsCount price rest
    | none => networkGetOutputLoop dist segmentsCount price rest

/-- The reconstruction loop of `Model.getOutput` (unnamed cortex `Model`
source): `if (!group) return;` — a missing group abandons the whole batch
(`undefined`, modelled as `none`). -/
def modelGetOutputLoop (dist : List DistributionSegment) (segmentsCount : ℕ)
    (price : ℚ) : List ℚ → Option (List NeuroVision)
  | [] => some []
  | cast :: rest =>
    match jsIndex dist (denormalize segmentsCount cast) with
    | some group =>
      (modelGetOutputLoop dist segmentsCount price rest).map
        (fun out => getPredictPrices price group.ratioFrom group.ratioTo :: out)
    | none => none

end Cortex

namespace Cortex

/-! ### Helper lemmas: `jsFindIndex` -/

theorem jsFindIndex_ge {α : Type} (p : α → Bool) (l : List α) :
    -1 ≤ jsFindIndex p l := by
  induction l with
  | nil => simp [jsFindIndex]
  | cons a as ih =>
    rw [jsFindIndex]
    by_cases hpa : p a
    · simp [hpa]
    · rw [if_neg hpa]
      by_cases h0 : jsFindIndex p as = -1
      · rw [if_pos h0]
      · rw [if_neg h0]
        omega

theorem jsFindIndex_lt_length {α : Type} (p : α → Bool) (l : List α) :
    jsFindIndex p l < (l.length : ℤ) := by
  induction l with
  | nil => simp [jsFindIndex]
  | cons a as ih =>
    rw [jsFindIndex]
    by_cases hpa : p a
    · simp [hpa]
    · rw [if_neg hpa]
      by_cases h0 : jsFindIndex p as = -1
      · rw [if_pos h0]
        simp only [List.length_cons]
        omega
      · rw [if_neg h0]
        simp only [List.length_cons]
        push_cast
        omega

theorem jsFindIndex_eq_neg_one_iff {α : Type} (p : α → Bool) (l : List α) :
    jsFindIndex p l = -1 ↔ ∀ x ∈ l, ¬ p x := by
  induction l with
  | nil => simp [jsFindIndex]
  | cons a as ih =>
    rw [jsFindIndex]
    by_cases hpa : p a
    · simp [hpa]
    · rw [if_neg hpa]
      by_cases h0 : jsFindIndex p as = -1
      · rw [if_pos h0]
        simp only [List.mem_cons, true_iff]
        rintro x (rfl | hx)
        · exact hpa
        · exact (ih.mp h0) x hx
      · rw [if_neg h0]
        have := jsFindIndex_ge p as
        constructor
        · intro h; omega
        · intro h
          exact absurd (ih.mpr (fun x hx => h x (List.mem_cons_of_mem a hx))) h0

theorem jsFindIndex_eq_coe {α : Type} (p : α → Bool) :
    ∀ (l : List α) (i : ℕ) (hi : i < l.length),
      (∀ j (hj : j < i), ¬ p (l.get ⟨j, hj.trans hi⟩)) → p (l.get ⟨i, hi⟩) →
      jsFindIndex p l = (i : ℤ) := by
  intro l
  induction l with
  | nil => intro i hi; simp at hi
  | cons a as ih =>
    intro i hi hbefore hat
    match i with
    | 0 =>
      have hat0 : p a := hat
      rw [jsFindIndex, if_pos hat0]
      rfl
    | j + 1 =>
      have hpa : ¬ p a := hbefore 0 (Nat.succ_pos j)
      have hj : j < as.length := Nat.succ_lt_succ_iff.mp hi
      have hrec : jsFindIndex p as = (j : ℤ) := by
        apply ih j hj
        · intro j2 hj2
          exact hbefore (j2 + 1) (Nat.succ_lt_succ hj2)
        · exact hat
      rw [jsFindIndex, if_neg hpa, if_neg (by rw [hrec]; omega), hrec]
      push_cast
      ring

end Cortex

namespace Cortex

/-! ### Helper lemmas: the distribution walk -/

theorem distWalk_count_sum (sc ss : ℕ) :
    ∀ (g : List DistributionData) (hg : g ≠ []) (segments : List DistributionSegment)
      (lcs : ℕ) (rf : ℚ),
      ((distWalk sc ss g segments lcs rf).map DistributionSegment.count).sum
          + (g.getLast hg).count
        = (segments.map DistributionSegment.count).sum + lcs
          + (g.map DistributionData.count).sum := by
  intro g
  induction g with
  | nil => intro hg; exact absurd rfl hg
  | cons x rest ih =>
    intro hg segments lcs rf
    cases rest with
    | nil =>
      rw [distWalk, if_pos (Or.inr rfl), distWalk]
      simp [List.getLast]
    | cons y rest2 =>
      have hne : (y :: rest2 : List DistributionData) ≠ [] := by simp
      rw [distWalk]
      rw [List.getLast_cons hne]
      by_cases hc : (sc ≠ 0 ∧ lcs + x.count > ss ∧
          ¬((segments.length : ℤ) = (sc : ℤ) - 1)) ∨ (y :: rest2 : List DistributionData) = []
      · rw [if_pos hc]
        have := ih hne (segments ++ [⟨rf, x.ratio, lcs⟩]) x.count x.ratio
        simp only [List.map_append, List.sum_append, List.map_cons, List.sum_cons,
          List.map_nil, List.sum_nil] at this ⊢
        omega
      · rw [if_neg hc]
        have := ih hne segments (lcs + x.count) rf
        simp only [List.map_cons, List.sum_cons] at this ⊢
        omega

theorem distWalk_length_le (sc ss : ℕ) :
    ∀ (g : List DistributionData) (segments : List DistributionSegment) (lcs : ℕ) (rf : ℚ),
      segments.length + 1 ≤ sc → (distWalk sc ss g segments lcs rf).length ≤ sc := by
  intro g
  induction g with
  | nil =>
    intro segments lcs rf h
    rw [distWalk]
    omega
  | cons x rest ih =>
    intro segments lcs rf h
    cases rest with
    | nil =>
      rw [distWalk, if_pos (Or.inr rfl), distWalk]
      simp only [List.length_append, List.length_cons, List.length_nil]
      omega
    | cons y rest2 =>
      rw [distWalk]
      by_cases hc : (sc ≠ 0 ∧ lcs + x.count > ss ∧
          ¬((segments.length : ℤ) = (sc : ℤ) - 1)) ∨ (y :: rest2 : List DistributionData) = []
      · rw [if_pos hc]
        apply ih
        have hnotfull : ¬((segments.length : ℤ) = (sc : ℤ) - 1) := by
          rcases hc with ⟨_, _, hf⟩ | habs
          · exact hf
          · simp at habs
        simp only [List.length_append, List.length_cons, List.length_nil]
        omega
      · rw [if_neg hc]
        exact ih segments (lcs + x.count) rf h

theorem distWalk_length_pos (sc ss : ℕ) :
    ∀ (g : List DistributionData), g ≠ [] →
      ∀ (segments : List DistributionSegment) (lcs : ℕ) (rf : ℚ),
        segments.length + 1 ≤ (distWalk sc ss g segments lcs rf).length := by
  intro g
  induction g with
  | nil => intro hg; exact absurd rfl hg
  | cons x rest ih =>
    intro _ segments lcs rf
    cases rest with
    | nil =>
      rw [distWalk, if_pos (Or.inr rfl), distWalk]
      simp
    | cons y rest2 =>
      have hne : (y :: rest2 : List DistributionData) ≠ [] := by simp
      rw [distWalk]
      by_cases hc : (sc ≠ 0 ∧ lcs + x.count > ss ∧
          ¬((segments.length : ℤ) = (sc : ℤ) - 1)) ∨ (y :: rest2 : List DistributionData) = []
      · rw [if_pos hc]
        have := ih hne (segments ++ [⟨rf, x.ratio, lcs⟩]) x.count x.ratio
        simp only [List.length_append, List.length_cons, List.length_nil] at this
        omega
      · rw [if_neg hc]
        exact ih hne segments (lcs + x.count) rf

/-! ### Helper lemmas: counting -/

theorem sum_ite_count (a : ℚ) :
    ∀ keys : List ℚ, (keys.map (fun k => if k = a then 1 else 0)).sum = keys.count a := by
  intro keys
  induction keys with
  | nil => simp
  | cons k ks ih =>
    simp only [List.map_cons, List.sum_cons, List.count_cons, beq_iff_eq, ih]
    omega

theorem sum_count_keys :
    ∀ (l keys : List ℚ), keys.Nodup → (∀ x ∈ l, x ∈ keys) →
      (keys.map (fun k => l.count k)).sum = l.length := by
  intro l
  induction l with
  | nil =>
    intro keys _ _
    simp
  | cons a t ih =>
    intro keys hnd hcov
    have hrw : (keys.map (fun k => (a :: t).count k)) =
        keys.map (fun k => t.count k + if k = a then 1 else 0) := by
      apply List.map_congr_left
      intro k _
      rw [List.count_cons]
      simp only [beq_iff_eq]
      rcases eq_or_ne a k with rfl | hne
      · simp
      · simp [hne, Ne.symm hne]
    rw [hrw, List.sum_map_add, ih keys hnd (fun x hx => hcov x (List.mem_cons_of_mem a hx)),
      sum_ite_count, List.count_eq_one_of_mem hnd (hcov a (List.mem_cons_self a t))]
    simp

end Cortex

namespace Cortex

/-! ### Helper lemmas: `getDistribution` -/

theorem getDistribution_eq_walk (l : List RatioCandle) (sc p : ℕ) (k0 : ℚ) (ks : List ℚ)
    (hsk : sortedRatioKeys l p = k0 :: ks) :
    getDistribution l sc p = some (distWalk sc (segCeil l.length sc)
      ((k0 :: ks).map (fun k => ⟨(l.map (fun c => toFixed c.ratio p)).count k, k⟩))
      [] 0 k0) := by
  rw [getDistribution, hsk]
  simp

theorem getDistribution_none_of_nil (l : List RatioCandle) (sc p : ℕ)
    (hsk : sortedRatioKeys l p = []) : getDistribution l sc p = none := by
  rw [getDistribution, hsk]
  simp

theorem sortedRatioKeys_ne_nil (l : List RatioCandle) (p : ℕ) (hl : l ≠ []) :
    sortedRatioKeys l p ≠ [] := by
  intro habs
  have hperm := jsSort_perm (jsKeyLe p) (mapKeys (l.map (fun c => toFixed c.ratio p)))
  rw [sortedRatioKeys] at habs
  rw [habs] at hperm
  have hmk : mapKeys (l.map (fun c => toFixed c.ratio p)) = [] := hperm.nil_eq.symm ▸ rfl
  cases l with
  | nil => exact hl rfl
  | cons c cs =>
    have : toFixed c.ratio p ∈ mapKeys ((c :: cs).map (fun x => toFixed x.ratio p)) := by
      rw [mem_mapKeys]
      exact List.mem_map_of_mem _ (List.mem_cons_self c cs)
    rw [hmk] at this
    simp at this

theorem getDistribution_isSome (l : List RatioCandle) (sc p : ℕ) (hl : l ≠ []) :
    (getDistribution l sc p).isSome := by
  cases hsk : sortedRatioKeys l p with
  | nil => exact absurd hsk (sortedRatioKeys_ne_nil l p hl)
  | cons k0 ks => rw [getDistribution_eq_walk l sc p k0 ks hsk]; rfl

theorem getDistribution_ne_nil {l : List RatioCandle} {sc p : ℕ}
    {dist : List DistributionSegment} (h : getDistribution l sc p = some dist) :
    dist ≠ [] := by
  cases hsk : sortedRatioKeys l p with
  | nil => rw [getDistribution_none_of_nil l sc p hsk] at h; exact absurd h (by simp)
  | cons k0 ks =>
    rw [getDistribution_eq_walk l sc p k0 ks hsk] at h
    have hw := distWalk_length_pos sc (segCeil l.length sc)
      ((k0 :: ks).map (fun k => ⟨(l.map (fun c => toFixed c.ratio p)).count k, k⟩))
      (by simp) [] 0 k0
    intro habs
    rw [Option.some_inj.mp h, habs] at hw
    simp at hw

theorem getDistribution_length_le {l : List RatioCandle} {sc p : ℕ}
    {dist : List DistributionSegment} (hsc : 1 ≤ sc)
    (h : getDistribution l sc p = some dist) : dist.length ≤ sc := by
  cases hsk : sortedRatioKeys l p with
  | nil => rw [getDistribution_none_of_nil l sc p hsk] at h; exact absurd h (by simp)
  | cons k0 ks =>
    rw [getDistribution_eq_walk l sc p k0 ks hsk] at h
    have hw := distWalk_length_le sc (segCeil l.length sc)
      ((k0 :: ks).map (fun k => ⟨(l.map (fun c => toFixed c.ratio p)).count k, k⟩))
      [] 0 k0 (by simpa using hsc)
    rw [← Option.some_inj.mp h]
    exact hw

set_option maxHeartbeats 1600000 in
theorem getDistribution_count_sum {l : List RatioCandle} {sc p : ℕ}
    {dist : List DistributionSegment} {klast : ℚ}
    (h : getDistribution l sc p = some dist)
    (hk : (sortedRatioKeys l p).getLast? = some klast) :
    (dist.map DistributionSegment.count).sum
        + (l.map (fun c => toFixed c.ratio p)).count klast = l.length := by
  cases hsk : sortedRatioKeys l p with
  | nil => rw [getDistribution_none_of_nil l sc p hsk] at h; exact absurd h (by simp)
  | cons k0 ks =>
    rw [getDistribution_eq_walk l sc p k0 ks hsk] at h
    have hgne : ((k0 :: ks).map
        (fun k => (⟨(l.map (fun c => toFixed c.ratio p)).count k, k⟩ : DistributionData))) ≠ [] := by
      simp
    have hsum := distWalk_count_sum sc (segCeil l.length sc) _ hgne [] 0 k0
    rw [Option.some_inj.mp h] at hsum
    -- the last element of the mapped frequency table
    have hlast : (((k0 :: ks).map
        (fun k => (⟨(l.map (fun c => toFixed c.ratio p)).count k, k⟩ : DistributionData))).getLast
          hgne).count = (l.map (fun c => toFixed c.ratio p)).count klast := by
      have h1 : (((k0 :: ks).map
          (fun k => (⟨(l.map (fun c => toFixed c.ratio p)).count k, k⟩ : DistributionData))).getLast?) =
          some (((k0 :: ks).map
            (fun k => (⟨(l.map (fun c => toFixed c.ratio p)).count k, k⟩ : DistributionData))).getLast hgne) :=
        List.getLast?_eq_getLast _ hgne
      rw [List.getLast?_map] at h1
      rw [hsk] at hk
      rw [hk] at h1
      simp only [Option.map_some'] at h1
      exact (congrArg DistributionData.count (Option.some_inj.mp h1)).symm
    rw [hlast] at hsum
    -- the total of the frequency table is the number of observations
    have htot : (((k0 :: ks).map
        (fun k => (⟨(l.map (fun c => toFixed c.ratio p)).count k, k⟩ : DistributionData))).map
          DistributionData.count).sum = l.length := by
      rw [List.map_map]
      have hnodup : (k0 :: ks).Nodup := by
        rw [← hsk, sortedRatioKeys]
        exact (jsSort_perm _ _).nodup_iff.mpr (mapKeys_nodup _)
      have hcov : ∀ x ∈ l.map (fun c => toFixed c.ratio p), x ∈ k0 :: ks := by
        intro x hx
        rw [← hsk, sortedRatioKeys]
        rw [(jsSort_perm _ _).mem_iff, mem_mapKeys]
        exact hx
      have := sum_count_keys (l.map (fun c => toFixed c.ratio p)) (k0 :: ks) hnodup hcov
      simpa using this
    rw [htot] at hsum
    simpa using hsum

end Cortex

namespace Cortex

/-! ### Helper lemmas: `optMap`, slices, the window loop -/

theorem optMap_length {α β : Type} (f : α → Option β) :
    ∀ {l : List α} {ys : List β}, optMap f l = some ys → ys.length = l.length := by
  intro l
  induction l with
  | nil =>
    intro ys h
    rw [optMap] at h
    rw [← Option.some_inj.mp h]
    rfl
  | cons a as ih =>
    intro ys h
    rw [optMap] at h
    cases hfa : f a with
    | none => rw [hfa] at h; simp at h
    | some b =>
      rw [hfa] at h
      cases hrec : optMap f as with
      | none => rw [hrec] at h; simp at h
      | some bs =>
        rw [hrec] at h
        simp only [Option.map_some', Option.some_inj] at h
        rw [← h]
        simp [ih hrec]

theorem optMap_get {α β : Type} (f : α → Option β) :
    ∀ {l : List α} {ys : List β}, optMap f l = some ys →
      ∀ {i : ℕ} {a : α}, l.get? i = some a → ∃ y, f a = some y ∧ ys.get? i = some y := by
  intro l
  induction l with
  | nil => intro ys h i a ha; simp at ha
  | cons x as ih =>
    intro ys h i a ha
    rw [optMap] at h
    cases hfa : f x with
    | none => rw [hfa] at h; simp at h
    | some b =>
      rw [hfa] at h
      cases hrec : optMap f as with
      | none => rw [hrec] at h; simp at h
      | some bs =>
        rw [hrec] at h
        simp only [Option.map_some', Option.some_inj] at h
        match i with
        | 0 =>
          simp only [List.get?_cons_zero, Option.some_inj] at ha
          refine ⟨b, ?_, ?_⟩
          · rw [← ha]; exact hfa
          · rw [← h]; rfl
        | i + 1 =>
          simp only [List.get?_cons_succ] at ha
          obtain ⟨y, hy1, hy2⟩ := ih hrec ha
          refine ⟨y, hy1, ?_⟩
          rw [← h]
          simpa using hy2

theorem mem_jsSliceQ {α : Type} {l : List α} {a b : ℚ} {x : α}
    (h : x ∈ jsSliceQ l a b) : x ∈ l := by
  rw [jsSliceQ] at h
  exact ((List.drop_sublist _ _).trans (List.take_sublist _ _)).mem h

theorem jsSliceQ_nat (l : List ℚ) (a b : ℕ) :
    jsSliceQ l (a : ℚ) (b : ℚ) = (l.take b).drop a := by
  rw [jsSliceQ]
  simp only [qTrunc_natCast]
  have ha : ¬((a : ℤ) < 0) := by omega
  have hb : ¬((b : ℤ) < 0) := by omega
  rw [if_neg ha, if_neg hb]
  have h1 : (min (b : ℤ) (l.length : ℤ)).toNat = min b l.length := by omega
  have h2 : (min (a : ℤ) (l.length : ℤ)).toNat = min a l.length := by omega
  rw [h1, h2]
  have h3 : l.take (min b l.length) = l.take b := by
    rcases le_or_lt b l.length with hle | hlt
    · rw [min_eq_left hle]
    · rw [min_eq_right hlt.le, List.take_length, List.take_of_length_le hlt.le]
  rw [h3]
  rcases le_or_lt a l.length with hle | hlt
  · rw [min_eq_left hle]
  · rw [min_eq_right hlt.le]
    have h4 : (l.take b).length ≤ l.length := by
      rw [List.length_take]
      exact min_le_right _ _
    rw [List.drop_eq_nil_of_le h4, List.drop_eq_nil_of_le (h4.trans hlt.le)]

theorem jsSliceQ_length_nat (l : List ℚ) (a b : ℕ) :
    (jsSliceQ l (a : ℚ) (b : ℚ)).length = min b l.length - a := by
  rw [jsSliceQ_nat, List.length_drop, List.length_take]

theorem windowLoop_eq_range (rows : List (List ℚ)) (r0 : List ℚ) (realInputSize : ℚ)
    (outputSize : ℕ) (N : ℕ)
    (hcond : ∀ j : ℕ, (((j : ℚ) + realInputSize) < (r0.length : ℚ) - (outputSize : ℚ)) ↔ j < N) :
    ∀ (fuel k : ℕ), N ≤ k + fuel →
      windowLoop rows r0 realInputSize outputSize fuel k =
        (List.range' k (N - k)).map (mkExample rows r0 realInputSize outputSize) := by
  intro fuel
  induction fuel with
  | zero =>
    intro k hk
    have : N - k = 0 := by omega
    rw [windowLoop, this]
    rfl
  | succ fuel ih =>
    intro k hk
    rw [windowLoop]
    by_cases hkN : k < N
    · rw [if_pos ((hcond k).mpr hkN)]
      have hsub : N - k = (N - (k + 1)) + 1 := by omega
      rw [hsub, List.range'_succ, List.map_cons, ih (k + 1) (by omega)]
      rfl
    · rw [if_neg (fun hc => hkN ((hcond k).mp hc))]
      have : N - k = 0 := by omega
      rw [this]
      rfl

end Cortex

namespace Cortex

theorem jsSliceQ_of_trunc (l : List ℚ) {a b : ℚ} {a2 b2 : ℕ}
    (ha : qTrunc a = (a2 : ℤ)) (hb : qTrunc b = (b2 : ℤ)) :
    jsSliceQ l a b = (l.take b2).drop a2 := by
  rw [jsSliceQ, ha, hb]
  have ha2 : ¬((a2 : ℤ) < 0) := by omega
  have hb2 : ¬((b2 : ℤ) < 0) := by omega
  rw [if_neg ha2, if_neg hb2]
  have h1 : (min (b2 : ℤ) (l.length : ℤ)).toNat = min b2 l.length := by omega
  have h2 : (min (a2 : ℤ) (l.length : ℤ)).toNat = min a2 l.length := by omega
  rw [h1, h2]
  have h3 : l.take (min b2 l.length) = l.take b2 := by
    rcases le_or_lt b2 l.length with hle | hlt
    · rw [min_eq_left hle]
    · rw [min_eq_right hlt.le, List.take_length, List.take_of_length_le hlt.le]
  rw [h3]
  rcases le_or_lt a2 l.length with hle | hlt
  · rw [min_eq_left hle]
  · rw [min_eq_right hlt.le]
    have h4 : (l.take b2).length ≤ l.length := by
      rw [List.length_take]
      exact min_le_right _ _
    rw [List.drop_eq_nil_of_le h4, List.drop_eq_nil_of_le (h4.trans hlt.le)]

theorem jsSliceQ_length_of_trunc (l : List ℚ) {a b : ℚ} {a2 b2 : ℕ}
    (ha : qTrunc a = (a2 : ℤ)) (hb : qTrunc b = (b2 : ℤ)) :
    (jsSliceQ l a b).length = min b2 l.length - a2 := by
  rw [jsSliceQ_of_trunc l ha hb, List.length_drop, List.length_take]

theorem quantizeStream_length (dist : List DistributionSegment) (sc : ℕ)
    (d : List RatioCandle) : (quantizeStream dist sc d).length = d.length := by
  rw [quantizeStream, List.length_map]

theorem addTrainingData_length (candles : List Candle) :
    (addTrainingData candles).length = min candles.length candles.tail.length := by
  rw [addTrainingData, List.length_map, List.length_zip]

/-- Window count for a single feature stream: the loop of `serveTrainingData`
over one quantized history of length `L` runs exactly `L - outputSize -
inputSize` times. -/
theorem serve_single_stream (inputSize segmentsCount outputSize : ℕ)
    (d : List RatioCandle) (hd : d ≠ []) :
    ∃ ts, serveTrainingData ⟨inputSize, segmentsCount, outputSize⟩ [d] = some ts ∧
      ts.length = d.length - inputSize - outputSize := by
  obtain ⟨dist, hdist⟩ := Option.isSome_iff_exists.mp
    (getDistribution_isSome d segmentsCount 4 hd)
  have hbuild : buildDistributions segmentsCount [d] = some [dist] := by
    rw [buildDistributions, optMap, hdist, optMap]
    rfl
  have hq : (([d].zip [dist]).map
      (fun pr => quantizeStream pr.2 segmentsCount pr.1)) = [quantizeStream dist segmentsCount d] := by
    rfl
  set q := quantizeStream dist segmentsCount d with hqdef
  have hL : q.length = d.length := quantizeStream_length dist segmentsCount d
  have hN : ∀ j : ℕ, (((j : ℚ) + ((inputSize : ℕ) : ℚ) / ((([d] : List (List RatioCandle)).length : ℕ) : ℚ))
        < ((q.length : ℕ) : ℚ) - ((outputSize : ℕ) : ℚ)) ↔
      j < d.length - outputSize - inputSize := by
    intro j
    have hlen1 : (([d] : List (List RatioCandle)).length : ℚ) = 1 := by simp
    rw [hlen1, div_one, hL]
    constructor
    · intro h
      have hcast : ((j + inputSize + outputSize : ℕ) : ℚ) < ((d.length : ℕ) : ℚ) := by
        push_cast
        linarith
      have := Nat.cast_lt.mp hcast
      omega
    · intro h
      have hlt : j + inputSize + outputSize < d.length := by omega
      have hcast : ((j + inputSize + outputSize : ℕ) : ℚ) < ((d.length : ℕ) : ℚ) :=
        Nat.cast_lt.mpr hlt
      push_cast at hcast
      linarith
  have hwl := windowLoop_eq_range [q] q
    (((inputSize : ℕ) : ℚ) / ((([d] : List (List RatioCandle)).length : ℕ) : ℚ))
    outputSize (d.length - outputSize - inputSize) hN (q.length + 1) 0 (by omega)
  refine ⟨(List.range' 0 (d.length - outputSize - inputSize)).map
    (mkExample [q] q (((inputSize : ℕ) : ℚ) / ((([d] : List (List RatioCandle)).length : ℕ) : ℚ))
      outputSize), ?_, ?_⟩
  · rw [serveTrainingData]
    rw [hbuild]
    simp only [hq]
    rw [hwl]
    simp
  · rw [List.length_map, List.length_range']
    omega

end Cortex

namespace Cortex

theorem qTrunc_div_20_3 : qTrunc ((20 : ℚ) / 3) = (6 : ℤ) := by
  with_unfolding_all decide

theorem qTrunc_div_29_3 : qTrunc ((29 : ℚ) / 3) = (9 : ℤ) := by
  with_unfolding_all decide

/-- The end-to-end window-assembly result for three feature streams of 100
candles each with `inputSize = 20`, `outputSize = 3`, `segmentsCount = 11`:
`realInputSize` is the fractional `20 / 3`, every per-stream window slice
truncates to 6 entries, the flattened input has 18 entries, the output 3, and
the loop runs 90 times. -/
theorem serve_three_100 (c1 c2 c3 : List Candle)
    (h1 : c1.length = 100) (h2 : c2.length = 100) (h3 : c3.length = 100) :
    ∃ ts, serveTrainingData ⟨20, 11, 3⟩
        [addTrainingData c1, addTrainingData c2, addTrainingData c3] = some ts ∧
      ts.length = 90 ∧ ∀ ex ∈ ts, ex.1.length = 18 ∧ ex.2.length = 3 := by
  have hd1 : (addTrainingData c1).length = 99 := by
    rw [addTrainingData_length, List.length_tail, h1]
    simp
  have hd2 : (addTrainingData c2).length = 99 := by
    rw [addTrainingData_length, List.length_tail, h2]
    simp
  have hd3 : (addTrainingData c3).length = 99 := by
    rw [addTrainingData_length, List.length_tail, h3]
    simp
  have hne1 : addTrainingData c1 ≠ [] := by
    intro habs; rw [habs] at hd1; simp at hd1
  have hne2 : addTrainingData c2 ≠ [] := by
    intro habs; rw [habs] at hd2; simp at hd2
  have hne3 : addTrainingData c3 ≠ [] := by
    intro habs; rw [habs] at hd3; simp at hd3
  obtain ⟨dist1, hdist1⟩ := Option.isSome_iff_exists.mp
    (getDistribution_isSome (addTrainingData c1) 11 4 hne1)
  obtain ⟨dist2, hdist2⟩ := Option.isSome_iff_exists.mp
    (getDistribution_isSome (addTrainingData c2) 11 4 hne2)
  obtain ⟨dist3, hdist3⟩ := Option.isSome_iff_exists.mp
    (getDistribution_isSome (addTrainingData c3) 11 4 hne3)
  have hbuild : buildDistributions 11
      [addTrainingData c1, addTrainingData c2, addTrainingData c3] =
      some [dist1, dist2, dist3] := by
    rw [buildDistributions, optMap, hdist1, optMap, hdist2, optMap, hdist3, optMap]
    rfl
  set q1 := quantizeStream dist1 11 (addTrainingData c1) with hq1def
  set q2 := quantizeStream dist2 11 (addTrainingData c2) with hq2def
  set q3 := quantizeStream dist3 11 (addTrainingData c3) with hq3def
  have hL1 : q1.length = 99 := by rw [hq1def, quantizeStream_length, hd1]
  have hL2 : q2.length = 99 := by rw [hq2def, quantizeStream_length, hd2]
  have hL3 : q3.length = 99 := by rw [hq3def, quantizeStream_length, hd3]
  have hq : (([addTrainingData c1, addTrainingData c2, addTrainingData c3].zip
      [dist1, dist2, dist3]).map (fun pr => quantizeStream pr.2 11 pr.1)) = [q1, q2, q3] := by
    rfl
  have hris : ((20 : ℕ) : ℚ) / ((([addTrainingData c1, addTrainingData c2,
      addTrainingData c3] : List (List RatioCandle)).length : ℕ) : ℚ) = 20 / 3 := by
    norm_num
  have hN : ∀ j : ℕ, (((j : ℚ) + (20 : ℚ) / 3) < ((q1.length : ℕ) : ℚ) - ((3 : ℕ) : ℚ)) ↔
      j < 90 := by
    intro j
    rw [hL1]
    constructor
    · intro h
      have hcast : ((j : ℕ) : ℚ) < 90 := by
        push_cast at h ⊢
        linarith
      exact_mod_cast hcast
    · intro h
      have hle : ((j : ℕ) : ℚ) ≤ 89 := by
        have : j ≤ 89 := by omega
        exact_mod_cast this
      push_cast
      linarith
  have hwl := windowLoop_eq_range [q1, q2, q3] q1 ((20 : ℚ) / 3) 3 90 hN (q1.length + 1) 0
    (by omega)
  refine ⟨(List.range' 0 90).map (mkExample [q1, q2, q3] q1 ((20 : ℚ) / 3) 3), ?_, ?_, ?_⟩
  · rw [serveTrainingData]
    rw [hbuild]
    simp only [hq]
    rw [hris, hwl]
  · rw [List.length_map, List.length_range']
  · intro ex hex
    rw [List.mem_map] at hex
    obtain ⟨j, hjmem, hj⟩ := hex
    rw [List.mem_range'] at hjmem
    obtain ⟨i, hi90, hji⟩ := hjmem
    have hj90 : j < 90 := by omega
    have htrA : qTrunc ((j : ℚ)) = ((j : ℕ) : ℤ) := qTrunc_natCast j
    have htrB : qTrunc ((j : ℚ) + (20 : ℚ) / 3) = ((j + 6 : ℕ) : ℤ) := by
      rw [qTrunc_natCast_add j (by norm_num), qTrunc_div_20_3]
      push_cast
      ring
    have htrC : qTrunc ((j : ℚ) + (20 : ℚ) / 3 + ((3 : ℕ) : ℚ)) = ((j + 9 : ℕ) : ℤ) := by
      rw [show ((j : ℚ) + (20 : ℚ) / 3 + ((3 : ℕ) : ℚ)) = (j : ℚ) + (29 : ℚ) / 3 by
        push_cast; ring]
      rw [qTrunc_natCast_add j (by norm_num), qTrunc_div_29_3]
      push_cast
      ring
    rw [← hj]
    constructor
    · rw [mkExample]
      simp only [List.map_cons, List.map_nil, List.flatten_cons, List.flatten_nil,
        List.length_append, List.length_nil]
      rw [jsSliceQ_length_of_trunc q1 htrA htrB, jsSliceQ_length_of_trunc q2 htrA htrB,
        jsSliceQ_length_of_trunc q3 htrA htrB, hL1, hL2, hL3]
      omega
    · rw [mkExample]
      simp only []
      rw [jsSliceQ_length_of_trunc q1 htrB htrC, hL1]
      omega

end Cortex

namespace Cortex

/-! ### Helper lemmas: value bounds of the quantization -/

theorem normalize_bounds (sc : ℕ) (hsc : 1 ≤ sc) {gid : ℤ}
    (hlo : -1 ≤ gid) (hhi : gid ≤ (sc : ℤ) - 1) :
    -(1 / (sc : ℚ)) ≤ normalize sc gid ∧ normalize sc gid ≤ 1 := by
  have hpos : (0 : ℚ) < (sc : ℚ) := by
    exact_mod_cast hsc
  have hgid_lo : (-1 : ℚ) ≤ (gid : ℚ) := by exact_mod_cast hlo
  have hgid_hi : (gid : ℚ) ≤ (sc : ℚ) - 1 := by
    have h1 : ((gid : ℤ) : ℚ) ≤ (((sc : ℤ) - 1 : ℤ) : ℚ) := by exact_mod_cast hhi
    push_cast at h1
    linarith
  constructor
  · rw [normalize, show -(1 / (sc : ℚ)) = (-1 : ℚ) / (sc : ℚ) by rw [neg_div]]
    exact (div_le_div_right hpos).mpr hgid_lo
  · rw [normalize, div_le_one hpos]
    linarith

theorem windowLoop_mem_values (rows : List (List ℚ)) (r0 : List ℚ) (R : ℚ) (S : ℕ) :
    ∀ (fuel k : ℕ) (ex : List ℚ × List ℚ), ex ∈ windowLoop rows r0 R S fuel k →
      (∀ v ∈ ex.1, ∃ r ∈ rows, v ∈ r) ∧ (∀ v ∈ ex.2, v ∈ r0) := by
  intro fuel
  induction fuel with
  | zero => intro k ex hex; rw [windowLoop] at hex; simp at hex
  | succ fuel ih =>
    intro k ex hex
    rw [windowLoop] at hex
    by_cases hc : ((k : ℚ) + R : ℚ) < (r0.length : ℚ) - (S : ℚ)
    · rw [if_pos hc] at hex
      rcases List.mem_cons.mp hex with rfl | htail
      · constructor
        · intro v hv
          simp only [List.mem_flatten, List.mem_map] at hv
          obtain ⟨slice, ⟨r, hr, hslice⟩, hvslice⟩ := hv
          rw [← hslice] at hvslice
          exact ⟨r, hr, mem_jsSliceQ hvslice⟩
        · intro v hv
          exact mem_jsSliceQ hv
      · exact ih (k + 1) ex htail
    · rw [if_neg hc] at hex
      simp at hex

theorem optMap_zip_mem {α β : Type} (f : α → Option β) :
    ∀ {l : List α} {ys : List β}, optMap f l = some ys →
      ∀ {a : α} {b : β}, (a, b) ∈ l.zip ys → f a = some b := by
  intro l
  induction l with
  | nil => intro ys h a b hab; rw [optMap] at h; rw [← Option.some_inj.mp h] at hab; simp at hab
  | cons x as ih =>
    intro ys h a b hab
    rw [optMap] at h
    cases hfa : f x with
    | none => rw [hfa] at h; simp at h
    | some b0 =>
      rw [hfa] at h
      cases hrec : optMap f as with
      | none => rw [hrec] at h; simp at h
      | some bs =>
        rw [hrec] at h
        simp only [Option.map_some', Option.some_inj] at h
        rw [← h, List.zip_cons_cons] at hab
        rcases List.mem_cons.mp hab with heq | htail
        · injection heq with heq1 heq2
          subst heq1
          subst heq2
          exact hfa
        · exact ih hrec htail

theorem quantizeStream_value_bound {params : NetworkParams}
    (hsc : 1 ≤ params.segmentsCount) {d : List RatioCandle}
    {dist : List DistributionSegment}
    (hdist : getDistribution d params.segmentsCount 4 = some dist)
    {v : ℚ} (hv : v ∈ quantizeStream dist params.segmentsCount d) :
    -(1 / (params.segmentsCount : ℚ)) ≤ v ∧ v ≤ 1 := by
  rw [quantizeStream, List.mem_map] at hv
  obtain ⟨rc, _, hrc⟩ := hv
  rw [← hrc]
  apply normalize_bounds params.segmentsCount hsc
  · exact jsFindIndex_ge _ _
  · have h1 := jsFindIndex_lt_length (groupPred rc.ratio) dist
    have h2 : dist.length ≤ params.segmentsCount := getDistribution_length_le hsc hdist
    have h3 : (dist.length : ℤ) ≤ (params.segmentsCount : ℤ) := by exact_mod_cast h2
    omega

end Cortex

namespace Cortex

/-! ### Helper lemmas: clamping, round trip, reconstruction, state -/

theorem clampedGroupId_bounds {dist : List DistributionSegment} {r : ℚ} {gid : ℤ}
    (h : clampedGroupId dist r = some gid) :
    0 ≤ gid ∧ gid ≤ (dist.length : ℤ) - 1 := by
  simp only [clampedGroupId] at h
  by_cases hfi : jsFindIndex (groupPred r) dist = -1
  · rw [if_pos hfi] at h
    cases dist with
    | nil => simp at h
    | cons d0 ds =>
      simp only [Option.some_inj] at h
      rw [← h]
      by_cases hlt : r < d0.ratioFrom
      · rw [if_pos hlt]
        constructor
        · exact le_rfl
        · simp only [List.length_cons]
          push_cast
          omega
      · rw [if_neg hlt]
        constructor
        · simp only [List.length_cons]
          push_cast
          omega
        · exact le_rfl
  · rw [if_neg hfi] at h
    rw [← Option.some_inj.mp h]
    have h1 := jsFindIndex_ge (groupPred r) dist
    have h2 := jsFindIndex_lt_length (groupPred r) dist
    omega

theorem denormalize_normalize (sc : ℕ) (hsc : 1 ≤ sc) (i : ℕ) (hi : i < sc) :
    denormalize sc (normalize sc (i : ℤ)) = (i : ℤ) := by
  have hsc0 : ((sc : ℚ)) ≠ 0 := by
    have : (0 : ℚ) < (sc : ℚ) := by exact_mod_cast hsc
    exact this.ne'
  rw [normalize, denormalize, div_mul_cancel₀ _ hsc0, ratRound_eq_round]
  rw [show (((i : ℤ) : ℚ)) = (((i : ℤ) : ℤ) : ℚ) from rfl, round_intCast]
  rw [min_eq_left]
  omega

theorem networkLoop_skip {dist : List DistributionSegment} {sc : ℕ} {price cast0 : ℚ}
    (hc : jsIndex dist (denormalize sc cast0) = none) :
    ∀ f1 f2 : List ℚ,
      networkGetOutputLoop dist sc price (f1 ++ cast0 :: f2) =
        networkGetOutputLoop dist sc price f1 ++ networkGetOutputLoop dist sc price f2 := by
  intro f1
  induction f1 with
  | nil =>
    intro f2
    simp only [List.nil_append, networkGetOutputLoop, hc]
  | cons x xs ih =>
    intro f2
    simp only [List.cons_append, networkGetOutputLoop]
    cases hx : jsIndex dist (denormalize sc x) with
    | none => simpa using ih f2
    | some g => simp only [List.append_eq, ih f2, List.cons_append]

theorem modelLoop_abort {dist : List DistributionSegment} {sc : ℕ} {price cast0 : ℚ}
    (hc : jsIndex dist (denormalize sc cast0) = none) :
    ∀ f1 f2 : List ℚ,
      modelGetOutputLoop dist sc price (f1 ++ cast0 :: f2) = none := by
  intro f1
  induction f1 with
  | nil =>
    intro f2
    simp only [List.nil_append, modelGetOutputLoop, hc]
  | cons x xs ih =>
    intro f2
    simp only [List.cons_append, modelGetOutputLoop]
    cases hx : jsIndex dist (denormalize sc x) with
    | none => simp
    | some g => simp only [List.append_eq, ih f2, Option.map_none']

end Cortex

namespace Cortex

/-! ### Claim theorems -/

/-- C9: calling `getDistribution` with an empty observation list does not
return a segment list — the source dereferences `gaussianDistr[0]` of an empty
frequency table and throws (modelled as `none`) — and the non-emptiness
precondition is exactly what totality needs: every non-empty observation list
produces a segment list. -/
theorem C9_empty_history_throws :
    getDistribution [] 6 4 = none ∧
    ∀ (l : List RatioCandle) (sc p : ℕ), l ≠ [] → (getDistribution l sc p).isSome := by
  constructor
  · rfl
  · intro l sc p hl
    exact getDistribution_isSome l sc p hl

theorem C9_witness :
    ([(⟨0, 0, 1⟩ : RatioCandle)] ≠ ([] : List RatioCandle)) ∧
    (getDistribution [⟨0, 0, 1⟩] 6 4).isSome := by
  constructor
  · simp
  · exact C9_empty_history_throws.2 [⟨0, 0, 1⟩] 6 4 (by simp)

/-- C1 (counterexample): two observations with distinct rounded ratios `1` and
`2` (no rounding collisions) yield a single segment whose `count` is `1`,
while the total observation count is `2`: the segment counts do not sum to the
observation count, because the accumulation walk records the count
*before* the closing value and drops the final value's multiplicity. -/
theorem C1_counterexample :
    getDistribution [⟨0, 0, 1⟩, ⟨0, 0, 2⟩] 6 4 = some [⟨1, 2, 1⟩] ∧
    (([⟨1, 2, 1⟩] : List DistributionSegment).map DistributionSegment.count).sum = 1 ∧
    ([(⟨0, 0, 1⟩ : RatioCandle), ⟨0, 0, 2⟩].length = 2) ∧
    toFixed (1 : ℚ) 4 ≠ toFixed (2 : ℚ) 4 ∧ (1 : ℕ) ≠ 2 := by
  with_unfolding_all decide

/-- C1 (amended): for every observation list on which `getDistribution`
succeeds, the segment `count` values sum to the total number of observations
*minus the number of observations that round to the last sorted key* (the
greatest key in the code's sort order); with no rounding collisions that is
`total - 1`, not `total`. -/
theorem C1_counts_sum_amended {l : List RatioCandle} {sc p : ℕ}
    {dist : List DistributionSegment} {klast : ℚ}
    (h : getDistribution l sc p = some dist)
    (hk : (sortedRatioKeys l p).getLast? = some klast) :
    (dist.map DistributionSegment.count).sum
        + (l.map (fun c => toFixed c.ratio p)).count klast = l.length :=
  getDistribution_count_sum h hk

theorem C1_amended_witness :
    getDistribution [⟨0, 0, 1⟩, ⟨0, 0, 2⟩] 6 4 = some [⟨1, 2, 1⟩] ∧
    (sortedRatioKeys [⟨0, 0, 1⟩, ⟨0, 0, 2⟩] 4).getLast? = some 2 ∧
    (([⟨1, 2, 1⟩] : List DistributionSegment).map DistributionSegment.count).sum
        + ([(⟨0, 0, 1⟩ : RatioCandle), ⟨0, 0, 2⟩].map
            (fun c => toFixed c.ratio 4)).count 2 = 2 := by
  have h1 : getDistribution [(⟨0, 0, 1⟩ : RatioCandle), ⟨0, 0, 2⟩] 6 4 = some [⟨1, 2, 1⟩] := by
    with_unfolding_all decide
  have h2 : (sortedRatioKeys [(⟨0, 0, 1⟩ : RatioCandle), ⟨0, 0, 2⟩] 4).getLast? = some 2 := by
    with_unfolding_all decide
  exact ⟨h1, h2, C1_counts_sum_amended h1 h2⟩

/-- C2 (code bug): `Array.from(map.keys()).sort()` sorts the numeric keys as
*strings*.  For ratios `2` and `10` the string order is `"10" < "2"`, so the
sorted key list is `[10, 2]` — not numerically ascending — and the returned
segment has `ratioFrom = 10 > ratioTo = 2`: the segments are not monotonically
non-decreasing and their union does not cover `[2, 10]`. -/
theorem C2_string_sort_bug :
    sortedRatioKeys [⟨0, 0, 2⟩, ⟨0, 0, 10⟩] 4 = [10, 2] ∧
    getDistribution [⟨0, 0, 2⟩, ⟨0, 0, 10⟩] 6 4 = some [⟨10, 2, 1⟩] ∧
    ¬((10 : ℚ) ≤ 2) := by
  with_unfolding_all decide

/-- C5: at inference time, a ratio matching no segment is clamped — strictly
below the first segment's `ratioFrom` the assigned index is `0`, and at or
above the last segment's `ratioTo` the assigned index is the last segment's
index — for any distribution whose segments satisfy the documented ordering
invariant. -/
theorem C5_classify_clamps {dist : List DistributionSegment} (hne : dist ≠ [])
    (hfrom : ∀ s ∈ dist, (dist.head hne).ratioFrom ≤ s.ratioFrom)
    (hto : ∀ s ∈ dist, s.ratioTo ≤ (dist.getLast hne).ratioTo)
    (hspan : (dist.head hne).ratioFrom ≤ (dist.getLast hne).ratioTo)
    (r : ℚ) :
    (r < (dist.head hne).ratioFrom → clampedGroupId dist r = some 0) ∧
    ((dist.getLast hne).ratioTo ≤ r →
      clampedGroupId dist r = some ((dist.length : ℤ) - 1)) := by
  constructor
  · intro hr
    have hfi : jsFindIndex (groupPred r) dist = -1 := by
      rw [jsFindIndex_eq_neg_one_iff]
      intro x hx
      simp only [groupPred, Bool.and_eq_true, decide_eq_true_eq, not_and]
      intro h1
      exact absurd ((hfrom x hx).trans h1) (not_le.mpr hr)
    cases dist with
    | nil => exact absurd rfl hne
    | cons d0 ds =>
      simp only [clampedGroupId, hfi, if_pos]
      rw [if_pos (by simpa using hr)]
  · intro hr
    have hfi : jsFindIndex (groupPred r) dist = -1 := by
      rw [jsFindIndex_eq_neg_one_iff]
      intro x hx
      simp only [groupPred, Bool.and_eq_true, decide_eq_true_eq, not_and]
      intro _
      exact not_lt.mpr ((hto x hx).trans hr)
    cases dist with
    | nil => exact absurd rfl hne
    | cons d0 ds =>
      simp only [clampedGroupId, hfi, if_pos]
      rw [if_neg (not_lt.mpr (by simpa using hspan.trans hr))]

theorem C5_witness :
    clampedGroupId [⟨1, 3/2, 1⟩, ⟨3/2, 2, 1⟩] 3 = some 1 ∧
    clampedGroupId [⟨1, 3/2, 1⟩, ⟨3/2, 2, 1⟩] (1/2) = some 0 := by
  have hmain := @C5_classify_clamps [⟨1, 3/2, 1⟩, ⟨3/2, 2, 1⟩] (by simp)
    (by intro s hs; fin_cases hs <;> with_unfolding_all decide)
    (by intro s hs; fin_cases hs <;> with_unfolding_all decide)
    (by with_unfolding_all decide)
  constructor
  · have h2 := (hmain 3).2 (by with_unfolding_all decide)
    rw [show ((([⟨1, 3/2, 1⟩, ⟨3/2, 2, 1⟩] : List DistributionSegment).length : ℤ) - 1) = 1 by
      simp] at h2
    exact h2
  · exact (hmain (1/2)).1 (by with_unfolding_all decide)

/-- C6: for a ratio strictly inside the interior of segment `i` of a
distribution whose segments are ordered (`ratioTo ≤` the next `ratioFrom`) and
whose length is at most `segmentsCount`, classifying, normalizing
(`i / segmentsCount`), denormalizing
(`min(round(v * segmentsCount), segmentsCount - 1)`) and looking the index up
recovers exactly the same segment.  In exact arithmetic the round trip is
exact, so no extra width condition is needed. -/
theorem C6_round_trip {dist : List DistributionSegment} {sc : ℕ} (hsc : 1 ≤ sc)
    (hlen : dist.length ≤ sc)
    (hp : dist.Pairwise (fun a b => a.ratioTo ≤ b.ratioFrom))
    {i : ℕ} (hi : i < dist.length) {r : ℚ}
    (hlo : (dist.get ⟨i, hi⟩).ratioFrom < r) (hhi : r < (dist.get ⟨i, hi⟩).ratioTo) :
    clampedGroupId dist r = some (i : ℤ) ∧
    jsIndex dist (denormalize sc (normalize sc (i : ℤ))) = some (dist.get ⟨i, hi⟩) := by
  have hfi : jsFindIndex (groupPred r) dist = (i : ℤ) := by
    apply jsFindIndex_eq_coe (groupPred r) dist i hi
    · intro j hj
      have hji := (List.pairwise_iff_get.mp hp) ⟨j, hj.trans hi⟩ ⟨i, hi⟩ hj
      simp only [groupPred, Bool.and_eq_true, decide_eq_true_eq, not_and]
      intro _
      exact not_lt.mpr (hji.trans hlo.le)
    · simp only [groupPred, Bool.and_eq_true, decide_eq_true_eq]
      exact ⟨hlo.le, hhi⟩
  constructor
  · simp only [clampedGroupId, hfi]
    rw [if_neg (by omega)]
  · rw [denormalize_normalize sc hsc i (hi.trans_le hlen)]
    rw [jsIndex, dif_pos]
    · simp
    · constructor
      · omega
      · simpa using hi

theorem C6_witness :
    clampedGroupId [⟨1, 3/2, 1⟩, ⟨3/2, 2, 1⟩] (5/4) = some 0 ∧
    jsIndex [(⟨1, 3/2, 1⟩ : DistributionSegment), ⟨3/2, 2, 1⟩]
      (denormalize 6 (normalize 6 0)) = some ⟨1, 3/2, 1⟩ := by
  have h := @C6_round_trip [⟨1, 3/2, 1⟩, ⟨3/2, 2, 1⟩] 6
    (by omega) (by simp) (by with_unfolding_all decide) 0 (by simp)
    (5/4) (by with_unfolding_all decide) (by with_unfolding_all decide)
  exact h

/-- C7 (counterexample): with a one-segment distribution and
`segmentsCount = 6`, the prediction batch `[0, 1]` has a first step that
denormalizes to index `0` (a valid segment) and a second step that
denormalizes to index `5` (no segment).  `Model.getOutput` of the unnamed
cortex `Model` source returns `undefined` for the *whole* batch
(`if (!group) return;`), so the reconstructible first step is not returned —
contradicting "only that single forecast step is absent". -/
theorem C7_counterexample :
    modelGetOutputLoop [⟨1, 2, 5⟩] 6 100 [0, 1] = none ∧
    jsIndex [(⟨1, 2, 5⟩ : DistributionSegment)] (denormalize 6 0) = some ⟨1, 2, 5⟩ ∧
    networkGetOutputLoop [⟨1, 2, 5⟩] 6 100 [0, 1] = [getPredictPrices 100 1 2] := by
  with_unfolding_all decide

/-- C7 (amended): the two variants disagree.  In `Network.getOutput`
(`src/neural.ts`) a predicted value that denormalizes to a missing segment
removes only its own forecast step — the loop over the remaining steps is the
concatenation of the reconstructions before and after it; in `Model.getOutput`
(the unnamed cortex `Model` source) the same situation abandons the entire
batch. -/
theorem C7_skip_vs_abort {dist : List DistributionSegment} {sc : ℕ} {price cast0 : ℚ}
    (hc : jsIndex dist (denormalize sc cast0) = none) (f1 f2 : List ℚ) :
    networkGetOutputLoop dist sc price (f1 ++ cast0 :: f2) =
      networkGetOutputLoop dist sc price f1 ++ networkGetOutputLoop dist sc price f2 ∧
    modelGetOutputLoop dist sc price (f1 ++ cast0 :: f2) = none :=
  ⟨networkLoop_skip hc f1 f2, modelLoop_abort hc f1 f2⟩

theorem C7_witness :
    (jsIndex [(⟨1, 2, 5⟩ : DistributionSegment)] (denormalize 6 1) = none) ∧
    networkGetOutputLoop [⟨1, 2, 5⟩] 6 100 ([0] ++ 1 :: [0]) =
      networkGetOutputLoop [⟨1, 2, 5⟩] 6 100 [0] ++
        networkGetOutputLoop [⟨1, 2, 5⟩] 6 100 [0] ∧
    modelGetOutputLoop [⟨1, 2, 5⟩] 6 100 ([0] ++ 1 :: [0]) = none := by
  have hc : jsIndex [(⟨1, 2, 5⟩ : DistributionSegment)] (denormalize 6 1) = none := by
    with_unfolding_all decide
  obtain ⟨ha, hb⟩ := @C7_skip_vs_abort [⟨1, 2, 5⟩] 6 100 1 hc [0] [0]
  exact ⟨hc, ha, hb⟩

end Cortex

namespace Cortex

/-- C8: for a single feature stream, training-mode window assembly produces
exactly `max(0, historyLength - inputSize - outputSize)` examples, where
`historyLength` is the length of the quantized history (one quantized point
per ratio observation); truncated subtraction on `ℕ` is exactly the claimed
`max(0, ...)`. -/
theorem C8_single_stream_count (inputSize segmentsCount outputSize : ℕ)
    (d : List RatioCandle) (hd : d ≠ []) :
    ∃ ts, serveTrainingData ⟨inputSize, segmentsCount, outputSize⟩ [d] = some ts ∧
      ts.length = d.length - inputSize - outputSize :=
  serve_single_stream inputSize segmentsCount outputSize d hd

theorem C8_witness :
    ([(⟨0, 0, 1⟩ : RatioCandle), ⟨0, 0, 1⟩, ⟨0, 0, 1⟩, ⟨0, 0, 1⟩, ⟨0, 0, 1⟩] ≠
      ([] : List RatioCandle)) ∧
    ∃ ts, serveTrainingData ⟨1, 6, 3⟩
        [[(⟨0, 0, 1⟩ : RatioCandle), ⟨0, 0, 1⟩, ⟨0, 0, 1⟩, ⟨0, 0, 1⟩, ⟨0, 0, 1⟩]] = some ts ∧
      ts.length = 1 := by
  constructor
  · simp
  · obtain ⟨ts, h1, h2⟩ := C8_single_stream_count 1 6 3
      [⟨0, 0, 1⟩, ⟨0, 0, 1⟩, ⟨0, 0, 1⟩, ⟨0, 0, 1⟩, ⟨0, 0, 1⟩] (by simp)
    exact ⟨ts, h1, by simpa using h2⟩

/-- C3 (counterexample): with 3 feature streams of 100 candles each,
`inputSize = 20`, `outputSize = 3`, `segmentsCount = 11`, `serveTrainingData`
produces 90 training examples — not the claimed `100 - 20 - 3 = 77` — because
`realInputSize = 20 / 3` and the loop runs while `windowEnd < 99 - 3`. -/
theorem C3_counterexample :
    Option.map List.length (serveTrainingData ⟨20, 11, 3⟩
      [addTrainingData (List.replicate 100 ⟨0, 1, 1, 1, 1, 1⟩),
       addTrainingData (List.replicate 100 ⟨0, 1, 1, 1, 1, 1⟩),
       addTrainingData (List.replicate 100 ⟨0, 1, 1, 1, 1, 1⟩)]) = some 90 ∧
    (90 : ℕ) ≠ 77 := by
  obtain ⟨ts, hts, hlen, _⟩ := serve_three_100
    (List.replicate 100 ⟨0, 1, 1, 1, 1, 1⟩) (List.replicate 100 ⟨0, 1, 1, 1, 1, 1⟩)
    (List.replicate 100 ⟨0, 1, 1, 1, 1, 1⟩) (by simp) (by simp) (by simp)
  constructor
  · rw [hts, Option.map_some', hlen]
  · omega

/-- C3 (amended): given 3 feature-stream candle histories each of length 100
and options `segmentsCount = 11`, `inputSize = 20`, `outputSize = 3`,
`serveTrainingData` produces exactly 90 training examples, each whose input
has length 18 (three per-stream windows of `trunc(20/3) = 6` quantized values)
and whose output has length 3. -/
theorem C3_three_streams (c1 c2 c3 : List Candle)
    (h1 : c1.length = 100) (h2 : c2.length = 100) (h3 : c3.length = 100) :
    ∃ ts, serveTrainingData ⟨20, 11, 3⟩
        [addTrainingData c1, addTrainingData c2, addTrainingData c3] = some ts ∧
      ts.length = 90 ∧ ∀ ex ∈ ts, ex.1.length = 18 ∧ ex.2.length = 3 :=
  serve_three_100 c1 c2 c3 h1 h2 h3

theorem C3_witness :
    (List.replicate 100 (⟨0, 1, 1, 1, 1, 1⟩ : Candle)).length = 100 ∧
    ∃ ts, serveTrainingData ⟨20, 11, 3⟩
        [addTrainingData (List.replicate 100 ⟨0, 1, 1, 1, 1, 1⟩),
         addTrainingData (List.replicate 100 ⟨0, 1, 1, 1, 1, 1⟩),
         addTrainingData (List.replicate 100 ⟨0, 1, 1, 1, 1, 1⟩)] = some ts ∧
      ts.length = 90 ∧ ∀ ex ∈ ts, ex.1.length = 18 ∧ ex.2.length = 3 := by
  constructor
  · simp
  · exact C3_three_streams _ _ _ (by simp) (by simp) (by simp)

/-- C4 (counterexample): six identical candles give five ratio observations of
`1`; the only distinct rounded value closes the single segment `[1, 1)` with
`count = 0`, and every observation then fails `findIndex`
(`1 < 1` is false), quantizing to `normalize(-1) = -1/6 < 0`.  With
`inputSize = 1` the training set contains these negative values — quantized
values are *not* all in `[0, 1]`. -/
theorem C4_counterexample :
    serveTrainingData ⟨1, 6, 3⟩ [List.replicate 5 ⟨0, 0, 1⟩] =
      some [([-(1/6)], [-(1/6), -(1/6), -(1/6)])] ∧
    ¬((0 : ℚ) ≤ -(1/6)) := by
  with_unfolding_all decide

/-- C4 (amended): quantized values are bounded, but not within `[0, 1]` on the
training path: every entry of every training example produced by
`serveTrainingData` lies in `[-1/segmentsCount, 1]` (the `-1/segmentsCount`
value occurs when an observation matches no segment, since the training path
does not clamp `findIndex`), while every inference-time value produced by the
clamped classification of `getInput` lies in `[0, 1]`. -/
theorem C4_value_bounds (params : NetworkParams) (hsc : 1 ≤ params.segmentsCount) :
    (∀ (dataset : List (List RatioCandle)) (ts : List (List ℚ × List ℚ)),
      serveTrainingData params dataset = some ts →
      ∀ ex ∈ ts, (∀ v ∈ ex.1, -(1 / (params.segmentsCount : ℚ)) ≤ v ∧ v ≤ 1) ∧
        (∀ v ∈ ex.2, -(1 / (params.segmentsCount : ℚ)) ≤ v ∧ v ≤ 1)) ∧
    (∀ (d : List RatioCandle) (dist : List DistributionSegment) (r : ℚ) (gid : ℤ),
      getDistribution d params.segmentsCount 4 = some dist →
      clampedGroupId dist r = some gid →
      0 ≤ normalize params.segmentsCount gid ∧ normalize params.segmentsCount gid ≤ 1) := by
  constructor
  · intro dataset ts h ex hex
    cases hbuild : buildDistributions params.segmentsCount dataset with
    | none =>
      rw [serveTrainingData, hbuild] at h
      simp at h
    | some dists =>
      cases hrows : (dataset.zip dists).map
          (fun pr => quantizeStream pr.2 params.segmentsCount pr.1) with
      | nil =>
        rw [serveTrainingData, hbuild] at h
        simp only [hrows] at h
        simp at h
      | cons r0 rest =>
        rw [serveTrainingData, hbuild] at h
        simp only [hrows, Option.some_inj] at h
        rw [← h] at hex
        have hval := windowLoop_mem_values (r0 :: rest) r0
          ((params.inputSize : ℚ) / ((dataset.length : ℕ) : ℚ)) params.outputSize
          (r0.length + 1) 0 ex hex
        have hbound : ∀ r2 ∈ r0 :: rest, ∀ v ∈ r2,
            -(1 / (params.segmentsCount : ℚ)) ≤ v ∧ v ≤ 1 := by
          intro r2 hr2 v hv
          rw [← hrows, List.mem_map] at hr2
          obtain ⟨pr, hpr, hpreq⟩ := hr2
          have hopt : buildDistributions params.segmentsCount dataset =
              some dists := hbuild
          rw [buildDistributions] at hopt
          have hdist := optMap_zip_mem _ hopt
            (show (pr.1, pr.2) ∈ dataset.zip dists from by simpa using hpr)
          rw [← hpreq] at hv
          exact quantizeStream_value_bound hsc hdist hv
        constructor
        · intro v hv
          obtain ⟨r2, hr2, hvr2⟩ := hval.1 v hv
          exact hbound r2 hr2 v hvr2
        · intro v hv
          exact hbound r0 (List.mem_cons_self r0 rest) v (hval.2 v hv)
  · intro d dist r gid hdist hgid
    obtain ⟨hlo, hhi⟩ := clampedGroupId_bounds hgid
    have hlen : dist.length ≤ params.segmentsCount :=
      getDistribution_length_le hsc hdist
    have hpos : (0 : ℚ) < (params.segmentsCount : ℚ) := by
      exact_mod_cast hsc
    constructor
    · rw [normalize]
      apply div_nonneg _ hpos.le
      exact_mod_cast hlo
    · have hlen2 : (dist.length : ℤ) ≤ (params.segmentsCount : ℤ) := by exact_mod_cast hlen
      have hb := normalize_bounds params.segmentsCount hsc (by omega) (hhi.trans (by omega))
      exact hb.2

theorem C4_witness :
    (1 ≤ 6) ∧
    (serveTrainingData ⟨1, 6, 3⟩ [List.replicate 5 ⟨0, 0, 1⟩] =
      some [([-(1/6)], [-(1/6), -(1/6), -(1/6)])] →
        True) ∧
    ∀ ex ∈ [([-(1/6 : ℚ)], [-(1/6 : ℚ), -(1/6), -(1/6)])],
      (∀ v ∈ ex.1, -(1 / ((6 : ℕ) : ℚ)) ≤ v ∧ v ≤ 1) ∧
      (∀ v ∈ ex.2, -(1 / ((6 : ℕ) : ℚ)) ≤ v ∧ v ≤ 1) := by
  refine ⟨by omega, fun _ => trivial, ?_⟩
  have hserve : serveTrainingData ⟨1, 6, 3⟩ [List.replicate 5 ⟨0, 0, 1⟩] =
      some [([-(1/6)], [-(1/6), -(1/6), -(1/6)])] := by
    with_unfolding_all decide
  exact (C4_value_bounds ⟨1, 6, 3⟩ (by decide)).1 [List.replicate 5 ⟨0, 0, 1⟩] _ hserve

end Cortex

namespace Cortex

/-- C10: `momentValue` mutates the persistent per-feature input buffers even
though it is a point-in-time query.  `getInput` copies only the outer array
(`[...this.input]`), so the `push`/`shift` on each inner row alias the stored
state: whenever every processed stream index has a stored row, the state after
`momentValue` equals the state after `nextValue`, and each stored row that
received a quantized value is the old row with the value appended and the
oldest entry evicted once the row exceeds `inputSize / candles.length`. -/
theorem C10_momentValue_mutates (s : NetworkState) (candles : List Candle)
    (segmentsCount inputSize : ℕ) (h : candles.length ≤ s.input.length) :
    momentValueState s candles segmentsCount inputSize =
      nextValueState s candles segmentsCount inputSize ∧
    ∀ (s2 : NetworkState),
      momentValueState s candles segmentsCount inputSize = some s2 →
      ∀ (i : ℕ), i < candles.length →
        ∀ (q : ℚ), getInputQuant s candles segmentsCount i = some (some q) →
          s2.input.get? i = some (pushEvict ((inputSize : ℚ) / (candles.length : ℚ))
            (s.input.getD i []) q) := by
  constructor
  · rw [momentValueState, nextValueState, getInputStored, getInputReturned,
      max_eq_right h]
  · intro s2 hs2 i hi q hq
    rw [momentValueState] at hs2
    cases hst : getInputStored s candles segmentsCount
        ((inputSize : ℚ) / (candles.length : ℚ)) with
    | none => rw [hst] at hs2; simp at hs2
    | some rows =>
      rw [hst] at hs2
      simp only [Option.map_some', Option.some_inj] at hs2
      rw [getInputStored, rowsAfter] at hst
      have hidx : (List.range s.input.length).get? i = some i :=
        List.get?_range (lt_of_lt_of_le hi h)
      obtain ⟨y, hy1, hy2⟩ := optMap_get _ hst hidx
      rw [rowUpdate, if_pos hi, hq] at hy1
      simp only [Option.map_some', Option.some_inj] at hy1
      rw [← hs2]
      rw [hy2, ← hy1]

theorem C10_witness :
    (([(⟨0, 3/2, 3/2, 3/2, 3/2, 1⟩ : Candle)]).length ≤
      (⟨[some ⟨0, 1, 1, 1, 1, 1⟩], [[⟨1, 2, 1⟩]], [[0]]⟩ : NetworkState).input.length) ∧
    momentValueState ⟨[some ⟨0, 1, 1, 1, 1, 1⟩], [[⟨1, 2, 1⟩]], [[0]]⟩
        [⟨0, 3/2, 3/2, 3/2, 3/2, 1⟩] 6 1 =
      nextValueState ⟨[some ⟨0, 1, 1, 1, 1, 1⟩], [[⟨1, 2, 1⟩]], [[0]]⟩
        [⟨0, 3/2, 3/2, 3/2, 3/2, 1⟩] 6 1 := by
  constructor
  · simp
  · exact (C10_momentValue_mutates ⟨[some ⟨0, 1, 1, 1, 1, 1⟩], [[⟨1, 2, 1⟩]], [[0]]⟩
      [⟨0, 3/2, 3/2, 3/2, 3/2, 1⟩] 6 1 (by simp)).1

end Cortex
